import Mathlib

/-!
Shallow embedding of `src/fetch_data.py` (kittycapital/btc-sentiment).

Python floats are modelled as `ℚ`; Python's `round(x, n)` (round-half-to-even
on the decimal value) is modelled exactly on `ℚ` by `roundHalfEven`.
Python's stable `sorted` is modelled by Mathlib's `List.insertionSort`, which
is likewise stable.  Fallible operations return `Option`.
-/

namespace FetchData

/-- Direction tag of a parsed entry (the `'type': 'up' / 'down'` field). -/
inductive Direction where
  | up : Direction
  | down : Direction
deriving DecidableEq

/-- One entry of a ladder, mirroring the dicts
`{'price': ..., 'probability': ..., 'type': ...}` built in `parse_markets`.
`probability` is a percentage (0–100 scale). -/
structure MarketEntry where
  price : ℚ
  probability : ℚ
  dir : Direction
deriving DecidableEq

/-- Python `round(x, 0)`: round half to even, exactly, on rationals. -/
def roundHalfEven (x : ℚ) : ℚ :=
  if x - (⌊x⌋ : ℚ) < 1/2 then ((⌊x⌋ : ℤ) : ℚ)
  else if (1 : ℚ)/2 < x - (⌊x⌋ : ℚ) then ((⌊x⌋ + 1 : ℤ) : ℚ)
  else if ⌊x⌋ % 2 = 0 then ((⌊x⌋ : ℤ) : ℚ) else ((⌊x⌋ + 1 : ℤ) : ℚ)

/-- Python `round(x, 1)`: round half to even at one decimal place. -/
def round1 (x : ℚ) : ℚ := roundHalfEven (10 * x) / 10

/-- Sort key `lambda x: x['price']` (ascending, as in `sorted(..., key=...)`). -/
def priceLe (a b : MarketEntry) : Prop := a.price ≤ b.price

/-- Sort key `lambda x: x['price']` with `reverse=True` (descending). -/
def priceGe (a b : MarketEntry) : Prop := b.price ≤ a.price

/-- Sort key `lambda x: x['probability']` (ascending). -/
def probLe (a b : MarketEntry) : Prop := a.probability ≤ b.probability

instance : DecidableRel priceLe := fun a b => inferInstanceAs (Decidable (a.price ≤ b.price))
instance : DecidableRel priceGe := fun a b => inferInstanceAs (Decidable (b.price ≤ a.price))
instance : DecidableRel probLe :=
  fun a b => inferInstanceAs (Decidable (a.probability ≤ b.probability))

instance : IsTotal MarketEntry priceLe := ⟨fun a b => le_total a.price b.price⟩
instance : IsTrans MarketEntry priceLe := ⟨fun _ _ _ h h' => le_trans h h'⟩
instance : IsTotal MarketEntry priceGe := ⟨fun a b => le_total b.price a.price⟩
instance : IsTrans MarketEntry priceGe := ⟨fun _ _ _ h h' => le_trans h' h⟩
instance : IsTotal MarketEntry probLe := ⟨fun a b => le_total a.probability b.probability⟩
instance : IsTrans MarketEntry probLe := ⟨fun _ _ _ h h' => le_trans h h'⟩

/-- The loop of `calculate_expected_high` / `calculate_expected_low` over the
already sorted data: for position `i`, the cumulative probability is
`probability / 100`, the next cumulative is that of position `i+1` (or `0` at
the end), and the marginal is `max(0, cumulative - next)`.  Returns the
`marginal_probs` list of `(price, marginal)` pairs. -/
def marginalList : List MarketEntry → List (ℚ × ℚ)
  | [] => []
  | [e] => [(e.price, max 0 (e.probability / 100))]
  | e :: e2 :: rest =>
      (e.price, max 0 (e.probability / 100 - e2.probability / 100)) :: marginalList (e2 :: rest)

/-- The accumulation `expected += item['price'] * item['marginal']`. -/
def msum (l : List (ℚ × ℚ)) : ℚ := (l.map (fun pm => pm.1 * pm.2)).sum

/-- Total marginal mass `Σ marginal_i` of a sorted ladder. -/
def margTotal (s : List MarketEntry) : ℚ := ((marginalList s).map Prod.snd).sum

/-- Residual mass `1 - c_0` (`prob_below_lowest` resp. `prob_above_highest`),
taken from the head of the sorted data.  (The Python code only forms it for a
non-empty list; the `[]` case is never used.) -/
def residualMass : List MarketEntry → ℚ
  | [] => 1
  | e :: _ => 1 - e.probability / 100

/-- `calculate_expected_high(upside_data, current_price)`.  The code returns
`None` for empty input, sorts ascending by price, forms the marginals, and
returns `round(current*_residual + Σ price*marginal, 0)`.  (`insertionSort`
of a list is `[]` exactly when the list is `[]`, so matching on the sorted
list reproduces the `if not upside_data` guard.) -/
def calculate_expected_high (upside_data : List MarketEntry) (current_price : ℚ) : Option ℚ :=
  match List.insertionSort priceLe upside_data with
  | [] => none
  | lowest :: rest =>
      some (roundHalfEven (current_price * (1 - lowest.probability / 100)
        + msum (marginalList (lowest :: rest))))

/-- `calculate_expected_low(downside_data, current_price)`: identical except
the sort is descending by price (`reverse=True`). -/
def calculate_expected_low (downside_data : List MarketEntry) (current_price : ℚ) : Option ℚ :=
  match List.insertionSort priceGe downside_data with
  | [] => none
  | highest :: rest =>
      some (roundHalfEven (current_price * (1 - highest.probability / 100)
        + msum (marginalList (highest :: rest))))

/-- A uniform increase of all cumulative probabilities by `d` percentage
points, prices fixed (the "market becomes more bullish" shift of §8). -/
def shiftE (d : ℚ) (e : MarketEntry) : MarketEntry := ⟨e.price, e.probability + d, e.dir⟩

/-- The last element of `e :: rest` (total version used to name the hardest
level of a sorted ladder). -/
def lastOf : List MarketEntry → MarketEntry → MarketEntry
  | [], e => e
  | x :: xs, _ => lastOf xs x

/-! Character-level embedding of `extract_price` and its three regular
expression patterns.  Each pattern is compiled to a deterministic
maximal-munch scanner; this is faithful because every character class in
these patterns is disjoint from the characters that may legally follow it,
so regex backtracking can never turn a failed greedy attempt into a match,
nor change the extent of a successful one. -/

/-- ASCII lowering, as applied by `.lower()` to the questions at hand. -/
def lowerChar (c : Char) : Char :=
  if 'A' ≤ c ∧ c ≤ 'Z' then Char.ofNat (c.toNat + 32) else c

/-- Lowercase a character list (model of `str.lower()`). -/
def lowerList (s : List Char) : List Char := s.map lowerChar

/-- Class `\d`. -/
def isDigitCh (c : Char) : Bool := decide ('0' ≤ c ∧ c ≤ '9')

/-- Class `[\d,]`. -/
def isDigitOrComma (c : Char) : Bool := isDigitCh c || c = ','

/-- Class `\s` (ASCII part, which is all that the inputs contain). -/
def isSpaceCh (c : Char) : Bool :=
  c = ' ' || c = '\t' || c = '\n' || c = '\r' || c = '\x0b' || c = '\x0c'

/-- Whether `p` is an initial segment of `s` (substring search helper). -/
def isPrefixL : List Char → List Char → Bool
  | [], _ => true
  | _ :: _, [] => false
  | a :: as, b :: bs => a = b && isPrefixL as bs

/-- Whether `needle` occurs as a contiguous substring of `hay`
(model of Python's `needle in hay`). -/
def containsSub (hay needle : List Char) : Bool :=
  match hay with
  | [] => needle.isEmpty
  | _ :: t => isPrefixL needle hay || containsSub t needle

/-- Greedy `(?:\.\d+)?`: a dot with at least one following digit, or
nothing.  Returns the consumed characters and the remainder. -/
def optFrac (s : List Char) : List Char × List Char :=
  match s with
  | '.' :: t =>
      let fd := t.takeWhile isDigitCh
      if fd.isEmpty then ([], s) else ('.' :: fd, t.drop fd.length)
  | _ => ([], s)

/-- One attempt of pattern 1, `\$?([\d,]+(?:\.\d+)?)\s*[kK]`, anchored at
the start of `s`.  Returns the capture group and the rest after the match. -/
def matchKAt (s : List Char) : Option (List Char × List Char) :=
  let s1 := match s with
    | '$' :: t => t
    | _ => s
  let ds := s1.takeWhile isDigitOrComma
  if ds.isEmpty then none
  else
    let (fr, r2) := optFrac (s1.drop ds.length)
    match r2.dropWhile isSpaceCh with
    | c :: rest => if c = 'k' || c = 'K' then some (ds ++ fr, rest) else none
    | [] => none

/-- One attempt of pattern 2, `\$\s*([\d,]+(?:\.\d+)?)`, anchored at the
start of `s`. -/
def matchDollarAt (s : List Char) : Option (List Char × List Char) :=
  match s with
  | '$' :: t =>
      let t1 := t.dropWhile isSpaceCh
      let ds := t1.takeWhile isDigitOrComma
      if ds.isEmpty then none
      else
        let (fr, r2) := optFrac (t1.drop ds.length)
        some (ds ++ fr, r2)
  | _ => none

/-- One attempt of pattern 3, `([\d,]+(?:\.\d+)?)`, anchored at the start
of `s`. -/
def matchBareAt (s : List Char) : Option (List Char × List Char) :=
  let ds := s.takeWhile isDigitOrComma
  if ds.isEmpty then none
  else
    let (fr, r2) := optFrac (s.drop ds.length)
    some (ds ++ fr, r2)

/-- `re.findall` driver: scan left to right, at each position attempt the
matcher; on success emit the capture group and resume after the match.
Every matcher consumes at least one character on success, so `s.length`
steps of fuel always suffice. -/
def findAllAux (m : List Char → Option (List Char × List Char)) :
    Nat → List Char → List (List Char)
  | 0, _ => []
  | _ + 1, [] => []
  | fuel + 1, c :: t =>
      match m (c :: t) with
      | some (g, rest) => g :: findAllAux m fuel rest
      | none => findAllAux m fuel t

/-- `re.findall(r'\$?([\d,]+(?:\.\d+)?)\s*[kK]', question)`. -/
def findAllK (s : List Char) : List (List Char) := findAllAux matchKAt s.length s

/-- `re.findall(r'\$\s*([\d,]+(?:\.\d+)?)', question)`. -/
def findAllDollar (s : List Char) : List (List Char) := findAllAux matchDollarAt s.length s

/-- `re.findall(r'([\d,]+(?:\.\d+)?)', question)`. -/
def findAllBare (s : List Char) : List (List Char) := findAllAux matchBareAt s.length s

/-- Greedy `(?:,\d+)*`: comma-separated digit groups.  Fuel-indexed; the
input's length always suffices since every iteration consumes ≥ 2 chars. -/
def commaGroups : Nat → List Char → List Char × List Char
  | 0, s => ([], s)
  | fuel + 1, s =>
      match s with
      | ',' :: t =>
          let ds := t.takeWhile isDigitCh
          if ds.isEmpty then ([], s)
          else
            let (g, r) := commaGroups fuel (t.drop ds.length)
            (',' :: (ds ++ g), r)
      | _ => ([], s)

/-- One attempt of the scaling-check pattern
`(\d+(?:,\d+)*(?:\.\d+)?)\s*[kK]`, anchored at the start of `s`; returns
the capture group. -/
def matchKStrictAt (s : List Char) : Option (List Char) :=
  let ds := s.takeWhile isDigitCh
  if ds.isEmpty then none
  else
    let r1 := s.drop ds.length
    let (cg, r2) := commaGroups r1.length r1
    let (fr, r3) := optFrac r2
    match r3.dropWhile isSpaceCh with
    | c :: _ => if c = 'k' || c = 'K' then some (ds ++ (cg ++ fr)) else none
    | [] => none

/-- `re.search(r'(\d+(?:,\d+)*(?:\.\d+)?)\s*[kK]', question)`, returning
the first capture group of the leftmost match. -/
def searchK : List Char → Option (List Char)
  | [] => none
  | c :: t =>
      match matchKStrictAt (c :: t) with
      | some g => some g
      | none => searchK t

/-- `match.replace(',', '')`. -/
def stripCommas (g : List Char) : List Char := g.filter (fun c => c ≠ ',')

/-- Numeric value of a digit character. -/
def digitVal (c : Char) : ℕ := c.toNat - 48

/-- Value of a digit string (most significant first). -/
def natVal (l : List Char) : ℕ := l.foldl (fun n c => 10 * n + digitVal c) 0

/-- `float(num_str)` on the digit/dot strings produced here, as an exact
rational; `none` models a raised `ValueError` (caught by the caller). -/
def parseFloatQ (s : List Char) : Option ℚ :=
  let ip := s.takeWhile isDigitCh
  match s.drop ip.length with
  | [] => if ip.isEmpty then none else some (natVal ip : ℚ)
  | '.' :: fr =>
      if fr.all isDigitCh ∧ ¬(ip.isEmpty ∧ fr.isEmpty) then
        some ((natVal ip : ℚ) + (natVal fr : ℚ) / 10 ^ fr.length)
      else none
  | _ => none

/-- `is_valid_price(price, asset_key)`: the per-asset plausibility bounds;
unknown assets get `(0, float('inf'))`, i.e. only a lower bound. -/
def is_valid_price (price : ℚ) (asset_key : String) : Bool :=
  if asset_key = "btc" then decide (10000 ≤ price ∧ price ≤ 1000000)
  else if asset_key = "eth" then decide (200 ≤ price ∧ price ≤ 100000)
  else if asset_key = "sol" then decide (5 ≤ price ∧ price ≤ 10000)
  else decide (0 ≤ price)

/-- The `value *= 1000` step: scale only when the question contains a
`k`/`K`, the value is below 10000, and the first strictly-formed k-suffixed
number of the question (`re.search`) has the same comma-stripped digit
string as this candidate. -/
def applyKScale (q : List Char) (v : ℚ) (numStr : List Char) : ℚ :=
  if ('k' ∈ lowerList q) ∧ v < 10000 then
    match searchK q with
    | some g2 => if stripCommas g2 = numStr then v * 1000 else v
    | none => v
  else v

/-- The body of `extract_price`'s inner loop for one capture group `g`:
strip commas, parse (`none` models the caught `ValueError`), apply the
K-suffix scaling, then validate.  `none` means "this candidate is
rejected, try the next one". -/
def processCandidate (q : List Char) (asset_key : String) (g : List Char) : Option ℚ :=
  match parseFloatQ (stripCommas g) with
  | none => none
  | some v =>
      if is_valid_price (applyKScale q v (stripCommas g)) asset_key then
        some (applyKScale q v (stripCommas g))
      else none

/-- First non-`none` value of `f` along a list (the early `return` of the
nested loops in `extract_price`). -/
def firstSome (f : α → Option β) : List α → Option β
  | [] => none
  | a :: t =>
      match f a with
      | some b => some b
      | none => firstSome f t

/-- All capture groups, in the order the code tries them: pattern 1 (k
suffix), then pattern 2 (currency prefix), then pattern 3 (bare number);
left-to-right within each pattern. -/
def allCandidates (q : List Char) : List (List Char) :=
  findAllK q ++ findAllDollar q ++ findAllBare q

/-- `extract_price(question, asset_key)`. -/
def extract_price (question asset_key : String) : Option ℚ :=
  firstSome (processCandidate question.data asset_key) (allCandidates question.data)

/-! Embedding of `parse_markets`. -/

/-- Result of `json.loads` on an `outcomes` / `outcomePrices` field:
either a well-formed list, or anything that makes the `try` block raise
(invalid JSON, a non-list, an element `float()` chokes on, …). -/
inductive JField (α : Type) where
  | malformed : JField α
  | ok : List α → JField α
deriving DecidableEq

/-- One market record as consumed by `parse_markets`; `outcomePrices`
entries are already `float`-parsed (exact, as `ℚ`). -/
structure RawMarket where
  groupItemTitle : String
  question : String
  outcomes : JField String
  outcomePrices : JField ℚ
deriving DecidableEq

/-- `market.get('groupItemTitle', '') or market.get('question', '')`
(Python `or`: an empty title falls back to the question). -/
def effQuestion (m : RawMarket) : String :=
  if m.groupItemTitle = "" then m.question else m.groupItemTitle

/-- Whether an outcome name contains "yes" case-insensitively. -/
def hasYes (o : String) : Bool := containsSub (lowerList o.data) ['y', 'e', 's']

/-- `next((i for i, o in enumerate(outcomes) if 'yes' in o.lower()), 0)`. -/
def yesIdx (outcomes : List String) : Nat := (List.findIdx? hasYes outcomes).getD 0

/-- `float(prices[yes_idx]) * 100 if yes_idx < len(prices) else 0`. -/
def yesProb (outcomes : List String) (ps : List ℚ) : ℚ :=
  match ps.get? (yesIdx outcomes) with
  | some p => p * 100
  | none => 0

/-- `any(indicator in q_lower for indicator in ['reach', '↑', 'hit'])`. -/
def hasUpMarker (q : List Char) : Bool :=
  containsSub q ['r', 'e', 'a', 'c', 'h'] || containsSub q ['↑'] ||
    containsSub q ['h', 'i', 't']

/-- `any(indicator in q_lower for indicator in ['dip', 'drop', 'fall', '↓'])`. -/
def hasDownMarker (q : List Char) : Bool :=
  containsSub q ['d', 'i', 'p'] || containsSub q ['d', 'r', 'o', 'p'] ||
    containsSub q ['f', 'a', 'l', 'l'] || containsSub q ['↓']

/-- The direction decision of `parse_markets`: markers on the (lowercased)
effective question; when neither side matches, a fallback looks for
`reach` / `dip` / `drop` in the raw `question` field; upside wins when both
flags are set; `none` when the entry stays unclassified (it is then
appended to neither ladder). -/
def classifyDir (q_lower full_lower : List Char) : Option Direction :=
  let isUp := hasUpMarker q_lower
  let isDown := hasDownMarker q_lower
  let isUp2 := if !isUp && !isDown then containsSub full_lower ['r', 'e', 'a', 'c', 'h']
    else isUp
  let isDown2 := if !isUp && !isDown then
      containsSub full_lower ['d', 'i', 'p'] || containsSub full_lower ['d', 'r', 'o', 'p']
    else isDown
  if isUp2 then some Direction.up
  else if isDown2 then some Direction.down
  else none

/-- The `try` body of `parse_markets` for one market record: `none` models
both a raised-and-caught exception (malformed arrays) and the explicit
`continue` cases (no price, no direction). -/
def processMarket (asset_key : String) (m : RawMarket) : Option (Direction × MarketEntry) :=
  match m.outcomes, m.outcomePrices with
  | JField.ok outs, JField.ok ps =>
      match extract_price (effQuestion m) asset_key with
      | none => none
      | some price =>
          match classifyDir (lowerList (effQuestion m).data) (lowerList m.question.data) with
          | none => none
          | some d => some (d, ⟨price, round1 (yesProb outs ps), d⟩)
  | _, _ => none

/-- The in-place key update of the dict comprehension keyed on `price`:
a later entry with an existing key replaces the earlier one but keeps its
position (Python dicts preserve first-insertion order of keys); a fresh
key is appended. -/
def upsertByPrice (m : MarketEntry) : List MarketEntry → List MarketEntry
  | [] => [m]
  | e :: es => if e.price = m.price then m :: es else e :: upsertByPrice m es

/-- `list({m['price']: m for m in sorted(l, key=lambda x: x['probability'])}.values())`. -/
def dedupeByPrice (l : List MarketEntry) : List MarketEntry :=
  (List.insertionSort probLe l).foldl (fun acc m => upsertByPrice m acc) []

/-- Deduplicate then `sort(key=lambda x: x['price'])`. -/
def finalizeLadder (l : List MarketEntry) : List MarketEntry :=
  List.insertionSort priceLe (dedupeByPrice l)

/-- The upside entries appended by the loop, in market order, before
deduplication. -/
def rawUp (markets : List RawMarket) (asset_key : String) : List MarketEntry :=
  ((markets.filterMap (processMarket asset_key)).filter
    (fun x => decide (x.1 = Direction.up))).map Prod.snd

/-- The downside entries appended by the loop, in market order, before
deduplication. -/
def rawDown (markets : List RawMarket) (asset_key : String) : List MarketEntry :=
  ((markets.filterMap (processMarket asset_key)).filter
    (fun x => decide (x.1 = Direction.down))).map Prod.snd

/-- `parse_markets(event, asset_key)`, taking the event's market list
(`event.get('markets', [])`; a falsy event is the empty list). -/
def parse_markets (markets : List RawMarket) (asset_key : String) :
    List MarketEntry × List MarketEntry :=
  (finalizeLadder (rawUp markets asset_key), finalizeLadder (rawDown markets asset_key))

/-- No two entries share a price (the dict-key uniqueness invariant). -/
def keysUnique (l : List MarketEntry) : Prop :=
  List.Pairwise (fun a b => a.price ≠ b.price) l

/-! Lemmas about the rounding and the marginal construction. -/

theorem roundHalfEven_mono {x y : ℚ} (h : x ≤ y) : roundHalfEven x ≤ roundHalfEven y := by
  have hf : ⌊x⌋ ≤ ⌊y⌋ := Int.floor_le_floor h
  have hx1 : ((⌊x⌋ : ℤ) : ℚ) ≤ x := Int.floor_le x
  have hx2 : x < ⌊x⌋ + 1 := Int.lt_floor_add_one x
  have hy1 : ((⌊y⌋ : ℤ) : ℚ) ≤ y := Int.floor_le y
  have hy2 : y < ⌊y⌋ + 1 := Int.lt_floor_add_one y
  unfold roundHalfEven
  rcases eq_or_lt_of_le hf with heq | hlt
  · rw [heq]
    have hq : ((⌊x⌋ : ℤ) : ℚ) = ((⌊y⌋ : ℤ) : ℚ) := by exact_mod_cast heq
    rw [heq] at hq hx1 hx2
    split_ifs <;> push_cast <;> linarith
  · have hc : ((⌊x⌋ : ℤ) : ℚ) + 1 ≤ ((⌊y⌋ : ℤ) : ℚ) := by exact_mod_cast hlt
    split_ifs <;> push_cast <;> linarith

theorem margTotal_nil : margTotal [] = 0 := rfl

theorem margTotal_cons_of_chain :
    ∀ (rest : List MarketEntry) (e : MarketEntry),
      List.Chain' (fun a b => b.probability ≤ a.probability) (e :: rest) →
      (∀ x ∈ e :: rest, 0 ≤ x.probability) →
      margTotal (e :: rest) = e.probability / 100
  | [], e, _, hpos => by
      have h0 : (0 : ℚ) ≤ e.probability := hpos e (by simp)
      simp only [margTotal, marginalList, List.map_cons, List.map_nil, List.sum_cons,
        List.sum_nil]
      rw [max_eq_right (by positivity)]
      ring
  | e2 :: r, e, hchain, hpos => by
      have h21 : e2.probability ≤ e.probability := (List.chain'_cons.mp hchain).1
      have ih := margTotal_cons_of_chain r e2 (List.chain'_cons.mp hchain).2
        (fun x hx => hpos x (List.mem_cons_of_mem _ hx))
      have hexp : margTotal (e :: e2 :: r)
          = max 0 (e.probability / 100 - e2.probability / 100) + margTotal (e2 :: r) := by
        simp [margTotal, marginalList]
      rw [hexp, ih, max_eq_right (by linarith)]
      ring

theorem lastOf_mem_cons : ∀ (l : List MarketEntry) (a : MarketEntry), lastOf l a ∈ a :: l
  | [], _ => by simp [lastOf]
  | b :: t, a => by
      have := lastOf_mem_cons t b
      simp only [lastOf]
      rcases List.mem_cons.mp this with h | h
      · simp [h]
      · simp [List.mem_cons_of_mem, h]

theorem msum_marginalList_shift (d : ℚ) (hd : 0 ≤ d) :
    ∀ (rest : List MarketEntry) (e : MarketEntry),
      0 ≤ (lastOf rest e).probability →
      msum (marginalList (shiftE d e :: rest.map (shiftE d)))
        = msum (marginalList (e :: rest)) + (lastOf rest e).price * (d / 100)
  | [], e, hlast => by
      simp only [lastOf] at hlast ⊢
      simp only [List.map_nil, marginalList, msum, List.map_cons, List.sum_cons,
        List.sum_nil, shiftE]
      rw [max_eq_right (by positivity), max_eq_right (by positivity)]
      ring
  | e2 :: r, e, hlast => by
      have hlast2 : lastOf (e2 :: r) e = lastOf r e2 := rfl
      have ih := msum_marginalList_shift d hd r e2 (by rw [hlast2] at hlast; exact hlast)
      have hL : msum (marginalList (shiftE d e :: shiftE d e2 :: r.map (shiftE d)))
          = (shiftE d e).price * max 0 ((shiftE d e).probability / 100
              - (shiftE d e2).probability / 100)
            + msum (marginalList (shiftE d e2 :: r.map (shiftE d))) := by
        simp [msum, marginalList]
      have hR : msum (marginalList (e :: e2 :: r))
          = e.price * max 0 (e.probability / 100 - e2.probability / 100)
            + msum (marginalList (e2 :: r)) := by
        simp [msum, marginalList]
      have hmax : (shiftE d e).probability / 100 - (shiftE d e2).probability / 100
          = e.probability / 100 - e2.probability / 100 := by
        simp only [shiftE]; ring
      rw [List.map_cons, hL, hmax, ih, hlast2]
      rw [hR]
      simp only [shiftE]
      ring

theorem insertionSort_map_shiftE (d : ℚ) (l : List MarketEntry) :
    List.insertionSort priceLe (l.map (shiftE d))
      = (List.insertionSort priceLe l).map (shiftE d) :=
  (List.map_insertionSort priceLe priceLe (shiftE d) l
    (fun _ _ _ _ => Iff.rfl)).symm

/-! Claim theorems on the expected-value calculators. -/

/-- C1: on the upside ladder [(100000, 70%), (120000, 55%), (150000, 20%)]
with reference price 95000, `calculate_expected_high` forms marginal masses
15% at 100000, 35% at 120000, 20% at 150000, residual mass 30%, and returns
115500. -/
theorem C1_expected_high_scenario :
    marginalList (List.insertionSort priceLe
        [(⟨100000, 70, Direction.up⟩ : MarketEntry), ⟨120000, 55, Direction.up⟩,
          ⟨150000, 20, Direction.up⟩])
      = [(100000, 15/100), (120000, 35/100), (150000, 20/100)] ∧
    residualMass (List.insertionSort priceLe
        [(⟨100000, 70, Direction.up⟩ : MarketEntry), ⟨120000, 55, Direction.up⟩,
          ⟨150000, 20, Direction.up⟩])
      = 30/100 ∧
    calculate_expected_high
        [(⟨100000, 70, Direction.up⟩ : MarketEntry), ⟨120000, 55, Direction.up⟩,
          ⟨150000, 20, Direction.up⟩] 95000
      = some 115500 := by
  refine ⟨?_, ?_, ?_⟩ <;>
    norm_num [calculate_expected_high, List.insertionSort, List.orderedInsert, priceLe,
      marginalList, msum, residualMass, roundHalfEven]

/-- C2 (counterexample): for the ladder [(50, 20%), (100, 80%)], whose
prices and probabilities all lie in [0, 100] but whose cumulative quotes
are not monotone, the marginal masses computed inside
`calculate_expected_high` together with the residual mass sum to
8/5 > 1, refuting the claimed bound `Σ marginal + residual ≤ 1`. -/
theorem C2_mass_bound_counterexample :
    margTotal (List.insertionSort priceLe
        [(⟨50, 20, Direction.up⟩ : MarketEntry), ⟨100, 80, Direction.up⟩])
      + residualMass (List.insertionSort priceLe
        [(⟨50, 20, Direction.up⟩ : MarketEntry), ⟨100, 80, Direction.up⟩])
      = 8/5 ∧
    ¬ (margTotal (List.insertionSort priceLe
        [(⟨50, 20, Direction.up⟩ : MarketEntry), ⟨100, 80, Direction.up⟩])
      + residualMass (List.insertionSort priceLe
        [(⟨50, 20, Direction.up⟩ : MarketEntry), ⟨100, 80, Direction.up⟩]) ≤ 1) := by
  constructor <;>
    norm_num [List.insertionSort, List.orderedInsert, priceLe, margTotal, marginalList,
      residualMass]

/-- C2 (amended): for ladders whose cumulative probabilities are
non-increasing along the sort order used by `calculate_expected_high`
(ascending price) resp. `calculate_expected_low` (descending price) — i.e.
consistent quotes — and non-negative, the marginal masses plus the residual
mass sum to at most 1. -/
theorem C2_mass_bound_amended (up down : List MarketEntry)
    (hup0 : ∀ e ∈ up, 0 ≤ e.probability ∧ e.probability ≤ 100)
    (hdown0 : ∀ e ∈ down, 0 ≤ e.probability ∧ e.probability ≤ 100)
    (hchainUp : List.Chain' (fun a b => b.probability ≤ a.probability)
      (List.insertionSort priceLe up))
    (hchainDown : List.Chain' (fun a b => b.probability ≤ a.probability)
      (List.insertionSort priceGe down)) :
    margTotal (List.insertionSort priceLe up)
      + residualMass (List.insertionSort priceLe up) ≤ 1 ∧
    margTotal (List.insertionSort priceGe down)
      + residualMass (List.insertionSort priceGe down) ≤ 1 := by
  constructor
  · cases hs : List.insertionSort priceLe up with
    | nil => simp [margTotal_nil, residualMass]
    | cons e rest =>
        rw [hs] at hchainUp
        have hpos : ∀ x ∈ e :: rest, 0 ≤ x.probability := by
          intro x hx
          have : x ∈ List.insertionSort priceLe up := by rw [hs]; exact hx
          exact (hup0 x ((List.mem_insertionSort priceLe).mp this)).1
        rw [margTotal_cons_of_chain rest e hchainUp hpos]
        simp only [residualMass]
        linarith
  · cases hs : List.insertionSort priceGe down with
    | nil => simp [margTotal_nil, residualMass]
    | cons e rest =>
        rw [hs] at hchainDown
        have hpos : ∀ x ∈ e :: rest, 0 ≤ x.probability := by
          intro x hx
          have : x ∈ List.insertionSort priceGe down := by rw [hs]; exact hx
          exact (hdown0 x ((List.mem_insertionSort priceGe).mp this)).1
        rw [margTotal_cons_of_chain rest e hchainDown hpos]
        simp only [residualMass]
        linarith

/-- Witness for the amended C2 at concrete consistent ladders. -/
theorem C2_mass_bound_amended_witness :
    margTotal (List.insertionSort priceLe
        [(⟨100000, 70, Direction.up⟩ : MarketEntry), ⟨120000, 55, Direction.up⟩])
      + residualMass (List.insertionSort priceLe
        [(⟨100000, 70, Direction.up⟩ : MarketEntry), ⟨120000, 55, Direction.up⟩]) ≤ 1 ∧
    margTotal (List.insertionSort priceGe [(⟨50000, 40, Direction.down⟩ : MarketEntry)])
      + residualMass
        (List.insertionSort priceGe [(⟨50000, 40, Direction.down⟩ : MarketEntry)]) ≤ 1 :=
  C2_mass_bound_amended
    [⟨100000, 70, Direction.up⟩, ⟨120000, 55, Direction.up⟩]
    [⟨50000, 40, Direction.down⟩]
    (by norm_num)
    (by norm_num)
    (by norm_num [List.insertionSort, List.orderedInsert, priceLe])
    (by norm_num [List.insertionSort, List.orderedInsert, priceGe])

/-- C4: on an empty ladder both calculators return `none` — never `0` and
never the reference price. -/
theorem C4_empty_ladder_null (c : ℚ) :
    calculate_expected_high [] c = none ∧ calculate_expected_low [] c = none ∧
    calculate_expected_high [] c ≠ some 0 ∧ calculate_expected_high [] c ≠ some c ∧
    calculate_expected_low [] c ≠ some 0 ∧ calculate_expected_low [] c ≠ some c := by
  refine ⟨rfl, rfl, ?_, ?_, ?_, ?_⟩ <;> simp [calculate_expected_high, calculate_expected_low,
    List.insertionSort]

/-- C9 (counterexample): with reference price 200 above the single ladder
price 100, increasing the cumulative probability uniformly by 10 points
(staying within [0, 100]) strictly decreases `calculate_expected_high`
(150 drops to 140), refuting the unconditional monotonicity claim. -/
theorem C9_monotonicity_counterexample :
    calculate_expected_high [(⟨100, 50, Direction.up⟩ : MarketEntry)] 200 = some 150 ∧
    calculate_expected_high
        (List.map (shiftE 10) [(⟨100, 50, Direction.up⟩ : MarketEntry)]) 200 = some 140 ∧
    ¬ ((150 : ℚ) ≤ 140) := by
  refine ⟨?_, ?_, by norm_num⟩ <;>
    norm_num [calculate_expected_high, List.insertionSort, List.orderedInsert, priceLe,
      marginalList, msum, roundHalfEven, shiftE]

/-- C9 (amended): for a non-empty upside ladder whose prices all lie at or
above the reference price, a uniform increase `d ≥ 0` of all cumulative
probabilities (keeping each within [0, 100]) cannot decrease
`calculate_expected_high`. -/
theorem C9_monotonicity_amended (l : List MarketEntry) (cur d : ℚ)
    (hne : l ≠ []) (hd : 0 ≤ d)
    (hrange : ∀ e ∈ l, 0 ≤ e.probability ∧ e.probability + d ≤ 100)
    (habove : ∀ e ∈ l, cur ≤ e.price) :
    ∃ v w, calculate_expected_high l cur = some v ∧
      calculate_expected_high (l.map (shiftE d)) cur = some w ∧ v ≤ w := by
  obtain ⟨e, rest, hs⟩ : ∃ e rest, List.insertionSort priceLe l = e :: rest := by
    cases hsl : List.insertionSort priceLe l with
    | nil =>
        exfalso
        apply hne
        have hp := List.perm_insertionSort priceLe l
        rw [hsl] at hp
        exact hp.symm.eq_nil
    | cons e rest => exact ⟨e, rest, rfl⟩
  have hmem : ∀ x ∈ e :: rest, x ∈ l := by
    intro x hx
    have : x ∈ List.insertionSort priceLe l := by rw [hs]; exact hx
    exact (List.mem_insertionSort priceLe).mp this
  have hlastMem : lastOf rest e ∈ l := hmem _ (lastOf_mem_cons rest e)
  have h0 : 0 ≤ (lastOf rest e).probability := (hrange _ hlastMem).1
  have hpe : cur ≤ (lastOf rest e).price := habove _ hlastMem
  have hv : calculate_expected_high l cur
      = some (roundHalfEven (cur * (1 - e.probability / 100)
          + msum (marginalList (e :: rest)))) := by
    unfold calculate_expected_high
    rw [hs]
  have hw : calculate_expected_high (l.map (shiftE d)) cur
      = some (roundHalfEven (cur * (1 - (e.probability + d) / 100)
          + msum (marginalList (shiftE d e :: rest.map (shiftE d))))) := by
    unfold calculate_expected_high
    rw [insertionSort_map_shiftE, hs, List.map_cons]
    rfl
  refine ⟨_, _, hv, hw, roundHalfEven_mono ?_⟩
  rw [msum_marginalList_shift d hd rest e h0]
  have hprod : 0 ≤ ((lastOf rest e).price - cur) * (d / 100) :=
    mul_nonneg (sub_nonneg.mpr hpe) (by positivity)
  nlinarith [hprod]

/-- Witness for the amended C9 at a concrete ladder above the reference. -/
theorem C9_monotonicity_amended_witness :
    ∃ v w, calculate_expected_high [(⟨100000, 50, Direction.up⟩ : MarketEntry)] 95000
        = some v ∧
      calculate_expected_high
        (List.map (shiftE 10) [(⟨100000, 50, Direction.up⟩ : MarketEntry)]) 95000
        = some w ∧ v ≤ w :=
  C9_monotonicity_amended [⟨100000, 50, Direction.up⟩] 95000 10
    (by simp) (by norm_num) (by norm_num) (by norm_num)

/-! Lemmas about the candidate loop of `extract_price`. -/

theorem firstSome_eq_none_iff (f : α → Option β) :
    ∀ l : List α, firstSome f l = none ↔ ∀ x ∈ l, f x = none
  | [] => by simp [firstSome]
  | a :: t => by
      rw [firstSome]
      cases hfa : f a with
      | some b => simp [hfa]
      | none => simp [hfa, firstSome_eq_none_iff f t]

theorem firstSome_append_of_none (f : α → Option β) :
    ∀ (pre : List α) (c : α) (post : List α) (v : β),
      (∀ x ∈ pre, f x = none) → f c = some v →
      firstSome f (pre ++ c :: post) = some v
  | [], c, post, v, _, hc => by rw [List.nil_append, firstSome, hc]
  | a :: pre, c, post, v, hpre, hc => by
      rw [List.cons_append, firstSome, hpre a (by simp)]
      exact firstSome_append_of_none f pre c post v (fun x hx => hpre x (by simp [hx])) hc

theorem firstSome_cons_of_some (f : α → Option β) (a : α) (t : List α) (b : β)
    (h : f a = some b) : firstSome f (a :: t) = some b := by
  show (match f a with | some b => some b | none => firstSome f t) = some b
  rw [h]

theorem applyKScale_scaled (q : List Char) (v : ℚ) (numStr g2 : List Char)
    (hk : 'k' ∈ lowerList q) (hv : v < 10000)
    (hsk : searchK q = some g2) (heq : stripCommas g2 = numStr) :
    applyKScale q v numStr = v * 1000 := by
  unfold applyKScale
  rw [if_pos ⟨hk, hv⟩, hsk]
  exact if_pos heq

theorem applyKScale_literal (q : List Char) (v : ℚ) (numStr : List Char)
    (hv : 10000 ≤ v) :
    applyKScale q v numStr = v := by
  unfold applyKScale
  rw [if_neg (fun h => absurd h.2 (not_lt.mpr hv))]

theorem processCandidate_of_scaled (q : List Char) (a : String) (g g2 : List Char) (v : ℚ)
    (hp : parseFloatQ (stripCommas g) = some v)
    (hk : 'k' ∈ lowerList q) (hv : v < 10000)
    (hsk : searchK q = some g2) (heq : stripCommas g2 = stripCommas g)
    (hval : is_valid_price (v * 1000) a = true) :
    processCandidate q a g = some (v * 1000) := by
  unfold processCandidate
  simp only [hp]
  rw [applyKScale_scaled q v (stripCommas g) g2 hk hv hsk heq]
  exact if_pos hval

theorem processCandidate_of_literal (q : List Char) (a : String) (g : List Char) (v : ℚ)
    (hp : parseFloatQ (stripCommas g) = some v)
    (hv : 10000 ≤ v)
    (hval : is_valid_price v a = true) :
    processCandidate q a g = some v := by
  unfold processCandidate
  simp only [hp]
  rw [applyKScale_literal q v (stripCommas g) hv]
  exact if_pos hval

/-- Concrete evaluation shared by several claims: on "Bitcoin $120K" the
k-suffix pattern captures "120", the scaling guard fires and the result is
120 × 1000 = 120000. -/
theorem extract_price_bitcoin120K : extract_price "Bitcoin $120K" "btc" = some 120000 := by
  have hc : allCandidates ("Bitcoin $120K".data)
      = [['1', '2', '0'], ['1', '2', '0'], ['1', '2', '0']] := by decide
  have hp : parseFloatQ (stripCommas ['1', '2', '0']) = some 120 := by
    norm_num +decide [stripCommas, parseFloatQ, natVal, digitVal, isDigitCh]
  have hpc : processCandidate ("Bitcoin $120K".data) "btc" ['1', '2', '0'] = some 120000 := by
    have h12 : processCandidate ("Bitcoin $120K".data) "btc" ['1', '2', '0']
        = some (120 * 1000) :=
      processCandidate_of_scaled _ _ _ ['1', '2', '0'] 120 hp (by decide) (by norm_num)
        (by decide) (by decide) (by norm_num [is_valid_price])
    rw [h12]; norm_num
  rw [extract_price, hc, firstSome, hpc]

/-- C5 (counterexample): "1,,2k" contains the decimal number 2 immediately
followed by a `k`; both its scaled value 2000 and even the scaled value
12000 of the full captured token "1,,2" are within the eth bounds, yet
`extract_price` returns `none` — the scaling guard compares the captured
token `1,,2` (digits "12") with the `re.search` group `2` and silently
skips the × 1000 step, after which 12 fails validation. -/
theorem C5_k_suffix_counterexample :
    extract_price "1,,2k" "eth" = none ∧
    is_valid_price 2000 "eth" = true ∧
    is_valid_price 12000 "eth" = true ∧
    searchK ("1,,2k".data) = some ['2'] := by
  have hc : allCandidates ("1,,2k".data)
      = [['1', ',', ',', '2'], ['1', ',', ',', '2']] := by decide
  have hpc : processCandidate ("1,,2k".data) "eth" ['1', ',', ',', '2'] = none := by
    norm_num +decide [processCandidate, stripCommas, parseFloatQ, natVal, digitVal,
      isDigitCh, is_valid_price, applyKScale, searchK, matchKStrictAt, commaGroups,
      optFrac, isSpaceCh, lowerList, lowerChar]
  have heth : ¬ ("eth" = "btc") := by decide
  refine ⟨?_, by rw [is_valid_price, if_neg heth]; norm_num,
    by rw [is_valid_price, if_neg heth]; norm_num, by decide⟩
  rw [extract_price, hc]
  simp only [firstSome, hpc]

/-- C5 (amended): whenever the first captured k-suffixed token parses to a
value `v < 10000` and the scaling guard agrees (the `re.search` group has
the same comma-stripped digits — true in particular for every well-formed
k-quantity such as `$120K`), `extract_price` returns `1000 · v` provided
that scaled value passes the asset bounds; a first captured k-token whose
value is already ≥ 10000 is returned literally (no scaling) when within
bounds; in particular `extract_price "Bitcoin $120K" btc = 120000`. -/
theorem C5_k_suffix_amended :
    (∀ (q a : String) (c g2 : List Char) (cs : List (List Char)) (v : ℚ),
      findAllK q.data = c :: cs →
      parseFloatQ (stripCommas c) = some v →
      'k' ∈ lowerList q.data →
      v < 10000 →
      searchK q.data = some g2 →
      stripCommas g2 = stripCommas c →
      is_valid_price (v * 1000) a = true →
      extract_price q a = some (v * 1000)) ∧
    (∀ (q a : String) (c : List Char) (cs : List (List Char)) (v : ℚ),
      findAllK q.data = c :: cs →
      parseFloatQ (stripCommas c) = some v →
      10000 ≤ v →
      is_valid_price v a = true →
      extract_price q a = some v) ∧
    extract_price "Bitcoin $120K" "btc" = some 120000 := by
  refine ⟨?_, ?_, extract_price_bitcoin120K⟩
  · intro q a c g2 cs v h1 h2 hk hv hsk heq hval
    have hpc := processCandidate_of_scaled q.data a c g2 v h2 hk hv hsk heq hval
    rw [extract_price, allCandidates, h1, List.cons_append]
    exact firstSome_cons_of_some _ _ _ _ hpc
  · intro q a c cs v h1 h2 hv hval
    have hpc := processCandidate_of_literal q.data a c v h2 hv hval
    rw [extract_price, allCandidates, h1, List.cons_append]
    exact firstSome_cons_of_some _ _ _ _ hpc

/-- Witness for the amended C5: both branches applied at concrete inputs
("Bitcoin $120K" for the scaled branch, "$12,345 k-line" style literal via
"hit 20000 k sats" is unnatural, so the literal branch uses "12,345k"
whose token parses to 12345 ≥ 10000 and is within btc bounds). -/
theorem C5_k_suffix_amended_witness :
    extract_price "Bitcoin $120K" "btc" = some (120 * 1000) ∧
    extract_price "12,345k" "btc" = some 12345 :=
  ⟨C5_k_suffix_amended.1 "Bitcoin $120K" "btc" ['1', '2', '0'] ['1', '2', '0'] [] 120
      (by decide)
      (by norm_num +decide [stripCommas, parseFloatQ, natVal, digitVal, isDigitCh])
      (by decide) (by norm_num) (by decide) (by decide)
      (by norm_num [is_valid_price]),
    C5_k_suffix_amended.2.1 "12,345k" "btc" ['1', '2', ',', '3', '4', '5'] [] 12345
      (by decide)
      (by norm_num +decide [stripCommas, parseFloatQ, natVal, digitVal, isDigitCh])
      (by norm_num) (by norm_num [is_valid_price])⟩

/-- C6: `extract_price` returns `none` exactly when every candidate (in
pattern order: k-suffix, then currency-prefixed, then bare; left-to-right
within a pattern) fails parsing-plus-validation; the first candidate that
validates supplies the returned value; in particular
`extract_price "Will BTC hit $500?" btc = none` (500 is below the btc
lower bound 10000). -/
theorem C6_first_validating_candidate :
    (∀ q a : String, extract_price q a = none ↔
      ∀ c ∈ allCandidates q.data, processCandidate q.data a c = none) ∧
    (∀ (q a : String) (pre post : List (List Char)) (c : List Char) (v : ℚ),
      allCandidates q.data = pre ++ c :: post →
      (∀ c2 ∈ pre, processCandidate q.data a c2 = none) →
      processCandidate q.data a c = some v →
      extract_price q a = some v) ∧
    extract_price "Will BTC hit $500?" "btc" = none := by
  refine ⟨?_, ?_, ?_⟩
  · intro q a
    rw [extract_price]
    exact firstSome_eq_none_iff _ (allCandidates q.data)
  · intro q a pre post c v hsplit hpre hc
    rw [extract_price, hsplit]
    exact firstSome_append_of_none _ pre c post v hpre hc
  · have hc : allCandidates ("Will BTC hit $500?".data)
        = [['5', '0', '0'], ['5', '0', '0']] := by decide
    have hpc : processCandidate ("Will BTC hit $500?".data) "btc" ['5', '0', '0'] = none := by
      norm_num +decide [processCandidate, stripCommas, parseFloatQ, natVal, digitVal,
        isDigitCh, is_valid_price, applyKScale, lowerList, lowerChar]
    rw [extract_price, hc]
    simp only [firstSome, hpc]

/-- Witness for C6: the first-validating-candidate clause applied at
"Bitcoin $120K" with an empty failing prefix. -/
theorem C6_first_validating_candidate_witness :
    extract_price "Bitcoin $120K" "btc" = some 120000 :=
  C6_first_validating_candidate.2.1 "Bitcoin $120K" "btc" []
    [['1', '2', '0'], ['1', '2', '0']] ['1', '2', '0'] 120000
    (by decide) (by intro c2 hc2; cases hc2)
    (by
      have hp : parseFloatQ (stripCommas ['1', '2', '0']) = some 120 := by
        norm_num +decide [stripCommas, parseFloatQ, natVal, digitVal, isDigitCh]
      have h12 := processCandidate_of_scaled ("Bitcoin $120K".data) "btc" ['1', '2', '0']
        ['1', '2', '0'] 120 hp (by decide) (by norm_num) (by decide) (by decide)
        (by norm_num [is_valid_price])
      rw [h12]; norm_num)

/-! Concrete `extract_price` evaluations shared by the `parse_markets`
claims, plus a generic first-candidate helper. -/

theorem extract_price_of_first_scaled (q a : String) (c g2 : List Char)
    (rest : List (List Char)) (v : ℚ)
    (hc : allCandidates q.data = c :: rest)
    (hp : parseFloatQ (stripCommas c) = some v)
    (hk : 'k' ∈ lowerList q.data) (hv : v < 10000)
    (hsk : searchK q.data = some g2) (heq : stripCommas g2 = stripCommas c)
    (hval : is_valid_price (v * 1000) a = true) :
    extract_price q a = some (v * 1000) := by
  rw [extract_price, hc]
  exact firstSome_cons_of_some _ _ _ _
    (processCandidate_of_scaled q.data a c g2 v hp hk hv hsk heq hval)

theorem extract_price_hit120K : extract_price "Hit $120K" "btc" = some 120000 := by
  have h := extract_price_of_first_scaled "Hit $120K" "btc" ['1', '2', '0'] ['1', '2', '0']
    [['1', '2', '0'], ['1', '2', '0']] 120
    (by decide)
    (by norm_num +decide [stripCommas, parseFloatQ, natVal, digitVal, isDigitCh])
    (by decide) (by norm_num) (by decide) (by decide)
    (by norm_num [is_valid_price])
  rw [h]; norm_num

theorem extract_price_dip70k : extract_price "Dip to $70k" "btc" = some 70000 := by
  have h := extract_price_of_first_scaled "Dip to $70k" "btc" ['7', '0'] ['7', '0']
    [['7', '0'], ['7', '0']] 70
    (by decide)
    (by norm_num +decide [stripCommas, parseFloatQ, natVal, digitVal, isDigitCh])
    (by decide) (by norm_num) (by decide) (by decide)
    (by norm_num [is_valid_price])
  rw [h]; norm_num

theorem extract_price_above120000 :
    extract_price "Will BTC be above $120,000?" "btc" = some 120000 := by
  have hc : allCandidates ("Will BTC be above $120,000?".data)
      = [['1', '2', '0', ',', '0', '0', '0'], ['1', '2', '0', ',', '0', '0', '0']] := by
    decide
  have hp : parseFloatQ (stripCommas ['1', '2', '0', ',', '0', '0', '0']) = some 120000 := by
    norm_num +decide [stripCommas, parseFloatQ, natVal, digitVal, isDigitCh]
  have hnk : ¬ (('k' ∈ lowerList ("Will BTC be above $120,000?".data)) ∧
      (120000 : ℚ) < 10000) := by
    intro h
    exact absurd h.1 (by decide)
  have hpc : processCandidate ("Will BTC be above $120,000?".data) "btc"
      ['1', '2', '0', ',', '0', '0', '0'] = some 120000 := by
    unfold processCandidate
    simp only [hp]
    rw [applyKScale, if_neg hnk]
    exact if_pos (by norm_num [is_valid_price])
  rw [extract_price, hc]
  exact firstSome_cons_of_some _ _ _ _ hpc

/-! Claim theorems on `parse_markets`. -/

/-- C7 (counterexample): the question "Will BTC be above $120,000?" contains
"above" and no downside marker, and its price extracts fine, yet
`parse_markets` classifies it neither UP nor DOWN: both returned ladders are
empty — "above" is not an upside marker in the code (the markers are
`reach`, `hit`, `↑`). -/
theorem C7_above_below_counterexample :
    extract_price "Will BTC be above $120,000?" "btc" = some 120000 ∧
    containsSub (lowerList ("Will BTC be above $120,000?".data))
      ['a', 'b', 'o', 'v', 'e'] = true ∧
    hasDownMarker (lowerList ("Will BTC be above $120,000?".data)) = false ∧
    hasUpMarker (lowerList ("Will BTC be above $120,000?".data)) = false ∧
    parse_markets [⟨"", "Will BTC be above $120,000?", JField.ok ["Yes", "No"],
      JField.ok [65/100, 35/100]⟩] "btc" = ([], []) := by
  refine ⟨extract_price_above120000, by decide, by decide, by decide, ?_⟩
  have hm : processMarket "btc" ⟨"", "Will BTC be above $120,000?", JField.ok ["Yes", "No"],
      JField.ok [65/100, 35/100]⟩ = none := by
    unfold processMarket
    have heff : effQuestion ⟨"", "Will BTC be above $120,000?", JField.ok ["Yes", "No"],
        JField.ok [65/100, 35/100]⟩ = "Will BTC be above $120,000?" := by
      simp [effQuestion]
    rw [heff, extract_price_above120000]
    have hcd : classifyDir (lowerList ("Will BTC be above $120,000?".data))
        (lowerList ("Will BTC be above $120,000?".data)) = none := by decide
    rw [hcd]
  unfold parse_markets rawUp rawDown
  rw [List.filterMap_cons, hm]
  rfl

/-- C7 (amended): the upside markers recognised by `parse_markets` are the
substrings `reach`, `hit` and the glyph `↑`, the downside markers `dip`,
`drop`, `fall` and `↓` (with a fallback on the raw question field when the
title shows neither); "above"/"below" are not markers.  A market whose
effective question shows an upside marker and no downside marker is placed
UP; one with a downside marker and no upside marker is placed DOWN. -/
theorem C7_direction_markers_amended :
    (∀ (m : RawMarket) (a : String) (outs : List String) (ps : List ℚ) (v : ℚ),
      m.outcomes = JField.ok outs →
      m.outcomePrices = JField.ok ps →
      extract_price (effQuestion m) a = some v →
      hasUpMarker (lowerList (effQuestion m).data) = true →
      hasDownMarker (lowerList (effQuestion m).data) = false →
      processMarket a m
        = some (Direction.up, ⟨v, round1 (yesProb outs ps), Direction.up⟩)) ∧
    (∀ (m : RawMarket) (a : String) (outs : List String) (ps : List ℚ) (v : ℚ),
      m.outcomes = JField.ok outs →
      m.outcomePrices = JField.ok ps →
      extract_price (effQuestion m) a = some v →
      hasUpMarker (lowerList (effQuestion m).data) = false →
      hasDownMarker (lowerList (effQuestion m).data) = true →
      processMarket a m
        = some (Direction.down, ⟨v, round1 (yesProb outs ps), Direction.down⟩)) := by
  constructor <;>
    · intro m a outs ps v ho hp he hu hd
      unfold processMarket
      rw [ho, hp, he]
      unfold classifyDir
      rw [hu, hd]
      simp

/-- Witness for the amended C7: a `hit`-titled market lands in UP, a
`dip`-titled one in DOWN. -/
theorem C7_direction_markers_amended_witness :
    processMarket "btc" ⟨"Hit $120K", "Will Bitcoin hit $120,000?", JField.ok ["Yes", "No"],
        JField.ok [65/100, 35/100]⟩
      = some (Direction.up,
          ⟨120000, round1 (yesProb ["Yes", "No"] [65/100, 35/100]), Direction.up⟩) ∧
    processMarket "btc" ⟨"Dip to $70k", "", JField.ok ["Yes", "No"],
        JField.ok [21/100, 79/100]⟩
      = some (Direction.down,
          ⟨70000, round1 (yesProb ["Yes", "No"] [21/100, 79/100]), Direction.down⟩) :=
  ⟨C7_direction_markers_amended.1 _ "btc" ["Yes", "No"] [65/100, 35/100] 120000
      rfl rfl extract_price_hit120K (by decide) (by decide),
    C7_direction_markers_amended.2 _ "btc" ["Yes", "No"] [21/100, 79/100] 70000
      rfl rfl extract_price_dip70k (by decide) (by decide)⟩

/-- C8 (counterexample): a record whose price array is merely *missing* is
not skipped.  `market.get('outcomePrices', '[]')` defaults the absent key
to the empty list — modelled by `JField.ok []` — after which the record is
processed normally and lands in the upside ladder with probability 0, so
the ladders differ from those of the event without the record. -/
theorem C8_missing_array_counterexample :
    processMarket "btc" ⟨"Hit $120K", "", JField.ok ["Up", "Down"], JField.ok []⟩
      = some (Direction.up, ⟨120000, 0, Direction.up⟩) ∧
    parse_markets [⟨"Hit $120K", "", JField.ok ["Up", "Down"], JField.ok []⟩] "btc"
      = ([⟨120000, 0, Direction.up⟩], []) ∧
    parse_markets ([] : List RawMarket) "btc" = ([], []) ∧
    ¬ (([⟨120000, 0, Direction.up⟩], ([] : List MarketEntry))
        = (([] : List MarketEntry), ([] : List MarketEntry))) := by
  have hpm : processMarket "btc" ⟨"Hit $120K", "", JField.ok ["Up", "Down"], JField.ok []⟩
      = some (Direction.up, ⟨120000, 0, Direction.up⟩) := by
    unfold processMarket
    have heff : effQuestion ⟨"Hit $120K", "", JField.ok ["Up", "Down"], JField.ok []⟩
        = "Hit $120K" := rfl
    rw [heff, extract_price_hit120K]
    have hcd : classifyDir (lowerList ("Hit $120K".data)) (lowerList ("".data))
        = some Direction.up := by decide
    rw [hcd]
    have hr : round1 (yesProb ["Up", "Down"] []) = 0 := by
      show round1 0 = 0
      norm_num [round1, roundHalfEven]
    show some (Direction.up,
        (⟨120000, round1 (yesProb ["Up", "Down"] []), Direction.up⟩ : MarketEntry))
      = some (Direction.up, (⟨120000, 0, Direction.up⟩ : MarketEntry))
    rw [hr]
  refine ⟨hpm, ?_, rfl, by simp⟩
  unfold parse_markets rawUp rawDown
  rw [List.filterMap_cons, hpm]
  rfl

/-- C8 (amended): a market record with a *malformed* (unparseable) outcome
or price array is skipped and the ladders equal those of the event without
it; all remaining records are still processed.  (An absent array instead
defaults to empty and the record is still processed.  The embedding is
total, mirroring the `try/except continue` that prevents any exception from
escaping the loop.) -/
theorem C8_malformed_record_skipped (ms1 ms2 : List RawMarket) (a : String) (m : RawMarket)
    (h : m.outcomes = JField.malformed ∨ m.outcomePrices = JField.malformed) :
    parse_markets (ms1 ++ m :: ms2) a = parse_markets (ms1 ++ ms2) a := by
  have hm : processMarket a m = none := by
    rcases h with h | h
    · unfold processMarket
      rw [h]
    · unfold processMarket
      rw [h]
      cases m.outcomes <;> rfl
  have hfm : (ms1 ++ m :: ms2).filterMap (processMarket a)
      = (ms1 ++ ms2).filterMap (processMarket a) := by
    simp only [List.filterMap_append, List.filterMap_cons, hm]
  unfold parse_markets rawUp rawDown
  rw [hfm]

/-- Witness for C8: dropping a malformed-outcomes record from a two-record
event leaves the ladders of the remaining well-formed record. -/
theorem C8_malformed_record_skipped_witness :
    parse_markets [⟨"bad", "Will Bitcoin reach $110,000?", JField.malformed,
        JField.ok [1/2]⟩,
      ⟨"Hit $120K", "", JField.ok ["Yes", "No"], JField.ok [65/100, 35/100]⟩] "btc"
    = parse_markets [⟨"Hit $120K", "", JField.ok ["Yes", "No"],
        JField.ok [65/100, 35/100]⟩] "btc" :=
  C8_malformed_record_skipped []
    [⟨"Hit $120K", "", JField.ok ["Yes", "No"], JField.ok [65/100, 35/100]⟩] "btc"
    ⟨"bad", "Will Bitcoin reach $110,000?", JField.malformed, JField.ok [1/2]⟩
    (Or.inl rfl)

/-- C10: when no outcome contains "yes" (case-insensitively) the Yes-index
defaults to 0, so the first quoted price supplies the probability; when the
price list is too short for the index — in particular empty — the
probability is 0 and the entry is still included (given a valid extracted
price and a recognised direction) rather than skipped. -/
theorem C10_yes_index_default :
    (∀ outs : List String, (∀ o ∈ outs, hasYes o = false) → yesIdx outs = 0) ∧
    (∀ (outs : List String) (ps : List ℚ), (∀ o ∈ outs, hasYes o = false) →
      yesProb outs ps = ps.headD 0 * 100) ∧
    (∀ (outs : List String) (ps : List ℚ), ps.length ≤ yesIdx outs → yesProb outs ps = 0) ∧
    (∀ (m : RawMarket) (a : String) (outs : List String) (v : ℚ) (d : Direction),
      m.outcomes = JField.ok outs →
      m.outcomePrices = JField.ok [] →
      extract_price (effQuestion m) a = some v →
      classifyDir (lowerList (effQuestion m).data) (lowerList m.question.data) = some d →
      processMarket a m = some (d, ⟨v, 0, d⟩)) := by
  have hidx : ∀ outs : List String, (∀ o ∈ outs, hasYes o = false) → yesIdx outs = 0 := by
    intro outs h
    unfold yesIdx
    rw [List.findIdx?_eq_none_iff.mpr h]
    rfl
  have hzero : ∀ (outs : List String) (ps : List ℚ), ps.length ≤ yesIdx outs →
      yesProb outs ps = 0 := by
    intro outs ps h
    unfold yesProb
    rw [List.get?_eq_none.mpr h]
  refine ⟨hidx, ?_, hzero, ?_⟩
  · intro outs ps h
    unfold yesProb
    rw [hidx outs h]
    cases ps with
    | nil => simp
    | cons p t => simp [List.get?]
  · intro m a outs v d ho hp he hcd
    unfold processMarket
    rw [ho, hp, he, hcd]
    have h0 : round1 (yesProb outs []) = 0 := by
      rw [hzero outs [] (by simp)]
      norm_num [round1, roundHalfEven]
    show some (d, (⟨v, round1 (yesProb outs []), d⟩ : MarketEntry))
      = some (d, (⟨v, 0, d⟩ : MarketEntry))
    rw [h0]

/-- Witness for C10: a no-"yes" outcome list with an empty price list still
produces an UP entry with probability 0. -/
theorem C10_yes_index_default_witness :
    yesIdx ["Up", "Down"] = 0 ∧
    yesProb ["Up", "Down"] [] = 0 ∧
    processMarket "btc" ⟨"Hit $120K", "", JField.ok ["Up", "Down"], JField.ok []⟩
      = some (Direction.up, ⟨120000, 0, Direction.up⟩) :=
  ⟨C10_yes_index_default.1 ["Up", "Down"] (by decide),
    C10_yes_index_default.2.2.1 ["Up", "Down"] [] (by simp [yesIdx]),
    C10_yes_index_default.2.2.2 _ "btc" ["Up", "Down"] 120000 Direction.up
      rfl rfl extract_price_hit120K (by decide)⟩

/-! Lemmas about the price-keyed deduplication (the dict comprehension of
`parse_markets`) and the final sort. -/

theorem mem_upsertByPrice {e x : MarketEntry} :
    ∀ {acc : List MarketEntry}, e ∈ upsertByPrice x acc → e = x ∨ e ∈ acc := by
  intro acc
  induction acc with
  | nil => intro h; simpa [upsertByPrice] using h
  | cons a as ih =>
      intro h
      rw [upsertByPrice] at h
      split_ifs at h with hp
      · rcases List.mem_cons.mp h with h | h
        · exact Or.inl h
        · exact Or.inr (List.mem_cons_of_mem _ h)
      · rcases List.mem_cons.mp h with h | h
        · exact Or.inr (by simp [h])
        · rcases ih h with h | h
          · exact Or.inl h
          · exact Or.inr (List.mem_cons_of_mem _ h)

theorem self_mem_upsertByPrice (x : MarketEntry) :
    ∀ acc : List MarketEntry, x ∈ upsertByPrice x acc
  | [] => by simp [upsertByPrice]
  | a :: as => by
      rw [upsertByPrice]
      split_ifs with hp
      · simp
      · exact List.mem_cons_of_mem _ (self_mem_upsertByPrice x as)

theorem price_preserved_upsertByPrice (x : MarketEntry) :
    ∀ (acc : List MarketEntry) (e : MarketEntry), e ∈ acc →
      ∃ e2 ∈ upsertByPrice x acc, e2.price = e.price
  | [], e, h => absurd h (List.not_mem_nil e)
  | a :: as, e, h => by
      rw [upsertByPrice]
      split_ifs with hp
      · rcases List.mem_cons.mp h with rfl | h
        · exact ⟨x, by simp, hp.symm⟩
        · exact ⟨e, by simp [h], rfl⟩
      · rcases List.mem_cons.mp h with rfl | h
        · exact ⟨e, by simp, rfl⟩
        · obtain ⟨e2, he2, hpe⟩ := price_preserved_upsertByPrice x as e h
          exact ⟨e2, List.mem_cons_of_mem _ he2, hpe⟩

theorem mem_upsertByPrice_unique {x : MarketEntry} :
    ∀ {acc : List MarketEntry}, keysUnique acc → ∀ {e}, e ∈ upsertByPrice x acc →
      e = x ∨ (e ∈ acc ∧ e.price ≠ x.price) := by
  intro acc
  induction acc with
  | nil =>
      intro _ e h
      exact Or.inl (by simpa [upsertByPrice] using h)
  | cons a as ih =>
      intro hu e h
      obtain ⟨ha, htail⟩ := List.pairwise_cons.mp hu
      rw [upsertByPrice] at h
      split_ifs at h with hp
      · rcases List.mem_cons.mp h with h | h
        · exact Or.inl h
        · refine Or.inr ⟨List.mem_cons_of_mem _ h, ?_⟩
          rw [← hp]
          exact (ha e h).symm
      · rcases List.mem_cons.mp h with rfl | h
        · exact Or.inr ⟨by simp, hp⟩
        · rcases ih htail h with h | ⟨hmem, hne⟩
          · exact Or.inl h
          · exact Or.inr ⟨List.mem_cons_of_mem _ hmem, hne⟩

theorem keysUnique_upsertByPrice (x : MarketEntry) :
    ∀ acc : List MarketEntry, keysUnique acc → keysUnique (upsertByPrice x acc)
  | [], _ => by simp [upsertByPrice, keysUnique]
  | a :: as, h => by
      obtain ⟨ha, htail⟩ := List.pairwise_cons.mp h
      rw [upsertByPrice]
      split_ifs with hp
      · exact List.pairwise_cons.mpr ⟨fun b hb => hp ▸ ha b hb, htail⟩
      · refine List.pairwise_cons.mpr ⟨?_, keysUnique_upsertByPrice x as htail⟩
        intro b hb
        rcases mem_upsertByPrice hb with rfl | hbas
        · exact hp
        · exact ha b hbas

theorem foldl_upsert_keysUnique :
    ∀ (xs acc : List MarketEntry), keysUnique acc →
      keysUnique (xs.foldl (fun acc m => upsertByPrice m acc) acc)
  | [], _, h => h
  | x :: xs, acc, h => foldl_upsert_keysUnique xs _ (keysUnique_upsertByPrice x acc h)

theorem foldl_upsert_mem_bound :
    ∀ (xs acc : List MarketEntry), keysUnique acc → List.Pairwise probLe xs →
      ∀ e ∈ xs.foldl (fun acc m => upsertByPrice m acc) acc,
        (e ∈ acc ∨ e ∈ xs) ∧
        (∀ m ∈ xs, m.price = e.price → m.probability ≤ e.probability)
  | [], acc, _, _, e, he => ⟨Or.inl he, by simp⟩
  | x :: xs, acc, hacc, hsort, e, he => by
      obtain ⟨hx, htail⟩ := List.pairwise_cons.mp hsort
      obtain ⟨hm, hb⟩ := foldl_upsert_mem_bound xs (upsertByPrice x acc)
        (keysUnique_upsertByPrice x acc hacc) htail e he
      constructor
      · rcases hm with hm | hm
        · rcases mem_upsertByPrice_unique hacc hm with rfl | ⟨hmem, _⟩
          · exact Or.inr (List.mem_cons_self _ _)
          · exact Or.inl hmem
        · exact Or.inr (List.mem_cons_of_mem _ hm)
      · intro m hmm hpeq
        rcases List.mem_cons.mp hmm with rfl | hmxs
        · rcases hm with hm | hm
          · rcases mem_upsertByPrice_unique hacc hm with rfl | ⟨_, hne⟩
            · exact le_refl _
            · exact absurd hpeq.symm hne
          · exact hx e hm
        · exact hb m hmxs hpeq

theorem foldl_upsert_covers :
    ∀ (xs acc : List MarketEntry) (p : ℚ),
      ((∃ e ∈ acc, e.price = p) ∨ (∃ m ∈ xs, m.price = p)) →
      ∃ e ∈ xs.foldl (fun acc m => upsertByPrice m acc) acc, e.price = p
  | [], _, _, h => by
      rcases h with h | h
      · exact h
      · obtain ⟨m, hm, _⟩ := h
        cases hm
  | x :: xs, acc, p, h => by
      apply foldl_upsert_covers xs (upsertByPrice x acc) p
      rcases h with ⟨e, he, hp⟩ | ⟨m, hm, hp⟩
      · obtain ⟨e2, he2, hp2⟩ := price_preserved_upsertByPrice x acc e he
        exact Or.inl ⟨e2, he2, by rw [hp2, hp]⟩
      · rcases List.mem_cons.mp hm with rfl | hmxs
        · exact Or.inl ⟨m, self_mem_upsertByPrice m acc, hp⟩
        · exact Or.inr ⟨m, hmxs, hp⟩

theorem dedupeByPrice_keysUnique (l : List MarketEntry) : keysUnique (dedupeByPrice l) :=
  foldl_upsert_keysUnique _ [] List.Pairwise.nil

theorem dedupeByPrice_mem_bound (l : List MarketEntry) :
    ∀ e ∈ dedupeByPrice l,
      e ∈ l ∧ ∀ m ∈ l, m.price = e.price → m.probability ≤ e.probability := by
  intro e he
  have hsort : List.Pairwise probLe (List.insertionSort probLe l) :=
    List.sorted_insertionSort probLe l
  obtain ⟨hm, hb⟩ := foldl_upsert_mem_bound (List.insertionSort probLe l) []
    List.Pairwise.nil hsort e he
  constructor
  · rcases hm with hm | hm
    · cases hm
    · exact (List.mem_insertionSort probLe).mp hm
  · intro m hml hpeq
    exact hb m ((List.mem_insertionSort probLe).mpr hml) hpeq

theorem dedupeByPrice_covers (l : List MarketEntry) :
    ∀ m ∈ l, ∃ e ∈ dedupeByPrice l, e.price = m.price := by
  intro m hm
  exact foldl_upsert_covers _ [] m.price
    (Or.inr ⟨m, (List.mem_insertionSort probLe).mpr hm, rfl⟩)

theorem finalizeLadder_sorted_strict (l : List MarketEntry) :
    List.Pairwise (fun a b : MarketEntry => a.price < b.price) (finalizeLadder l) := by
  have hsorted : List.Pairwise priceLe (finalizeLadder l) :=
    List.sorted_insertionSort priceLe (dedupeByPrice l)
  have hperm : (finalizeLadder l).Perm (dedupeByPrice l) :=
    List.perm_insertionSort priceLe (dedupeByPrice l)
  have hne : List.Pairwise (fun a b : MarketEntry => a.price ≠ b.price) (finalizeLadder l) :=
    (List.Perm.pairwise_iff (fun h => h.symm) hperm).mpr (dedupeByPrice_keysUnique l)
  exact (hsorted.and hne).imp (fun h => lt_of_le_of_ne h.1 h.2)

theorem finalizeLadder_mem_bound (l : List MarketEntry) :
    ∀ e ∈ finalizeLadder l,
      e ∈ l ∧ ∀ m ∈ l, m.price = e.price → m.probability ≤ e.probability := by
  intro e he
  exact dedupeByPrice_mem_bound l e ((List.mem_insertionSort priceLe).mp he)

theorem finalizeLadder_covers (l : List MarketEntry) :
    ∀ m ∈ l, ∃ e ∈ finalizeLadder l, e.price = m.price := by
  intro m hm
  obtain ⟨e, he, hp⟩ := dedupeByPrice_covers l m hm
  exact ⟨e, (List.mem_insertionSort priceLe).mpr he, hp⟩

/-- C3: each ladder returned by `parse_markets` is strictly ascending in
price (hence has at most one entry per price); every returned entry is one
of the raw (pre-dedup) entries of its direction and carries the maximal
probability among the raw entries sharing its price; and every raw entry's
price is represented in the returned ladder. -/
theorem C3_dedup_keeps_max_probability (ms : List RawMarket) (a : String) :
    (List.Pairwise (fun x y : MarketEntry => x.price < y.price) (parse_markets ms a).1 ∧
      (∀ e ∈ (parse_markets ms a).1, e ∈ rawUp ms a ∧
        ∀ m ∈ rawUp ms a, m.price = e.price → m.probability ≤ e.probability) ∧
      ∀ m ∈ rawUp ms a, ∃ e ∈ (parse_markets ms a).1, e.price = m.price) ∧
    (List.Pairwise (fun x y : MarketEntry => x.price < y.price) (parse_markets ms a).2 ∧
      (∀ e ∈ (parse_markets ms a).2, e ∈ rawDown ms a ∧
        ∀ m ∈ rawDown ms a, m.price = e.price → m.probability ≤ e.probability) ∧
      ∀ m ∈ rawDown ms a, ∃ e ∈ (parse_markets ms a).2, e.price = m.price) :=
  ⟨⟨finalizeLadder_sorted_strict _, finalizeLadder_mem_bound _, finalizeLadder_covers _⟩,
    ⟨finalizeLadder_sorted_strict _, finalizeLadder_mem_bound _, finalizeLadder_covers _⟩⟩

end FetchData
